import Mathlib

/-!
# Verification of the container classes in `advanced_structures.py`

Shallow embedding of the original container logic of the repository:

* `stack` — list-backed LIFO container (`advanced_structures.py`, section 3);
* `queue` — naive list-backed FIFO queue (section 4);
* `my_queue` — deque-backed FIFO queue with a runtime element-type witness
  (section 5);
* the `heapq`-based priority queue (section 6).  The repository drives the
  CPython `heapq` library functions `heappush`/`heappop`; those functions are
  embedded here following the reference implementation in CPython's
  `Lib/heapq.py` (`_siftdown`, `_siftup`, `heappush`, `heappop`), with the
  `while` loops rendered as structural recursion over an explicit iteration
  bound (a bound of `pos` iterations suffices for `_siftdown`, whose index
  strictly decreases, and of `endpos - pos` iterations for `_siftup`, whose
  index strictly increases below `endpos`; with a sufficient bound the
  fuelled recursion takes exactly the branches of the original loops).

Python lists and deques are modelled as Lean lists; Python `None` results as
`Option`; raised exceptions as an error value paired with the (unchanged)
container state.
-/

/-- The runtime type tags needed for `my_queue`'s `type(element) ==
self.element_type` check (`advanced_structures.py:199`).  The repository only
ever stores ints and strings in its containers. -/
inductive PyType : Type where
  | int : PyType
  | str : PyType
deriving DecidableEq

/-- A dynamically typed Python value, as far as the repository's containers
are concerned. -/
inductive PyVal : Type where
  | int : Int → PyVal
  | str : String → PyVal
deriving DecidableEq

/-- `type(v)` for the embedded values. -/
def PyVal.type : PyVal → PyType
  | .int _ => .int
  | .str _ => .str

/-- The exception kinds raised by the code: a bare `assert` failure
(`advanced_structures.py:199`; the spec's `TypeMismatchError`) and
`IndexError` with its message (`advanced_structures.py:210,217` and CPython
`list.pop` on an empty list; the spec's `EmptyContainerError`). -/
inductive PyError : Type where
  | assertionError : PyError
  | indexError : String → PyError
deriving DecidableEq

/-! ## Section 3: the `stack` class (`advanced_structures.py:99-127`)

The backing Python list is a Lean list whose *end* is the logical top,
exactly as in the source (`append`/`pop` at the end). -/

structure stack (α : Type) : Type where
  /-- the backing Python list `self.stack` -/
  items : List α

/-- `stack.__init__`: `stack(elements)` copies the passed elements in order,
`stack()` starts empty (`advanced_structures.py:100-104`). -/
def stack.new {α : Type} (elements : Option (List α)) : stack α :=
  match elements with
  | none => ⟨[]⟩
  | some es => ⟨es⟩

/-- `stack.push`: `self.stack.append(element)` (`advanced_structures.py:106-107`). -/
def stack.push {α : Type} (s : stack α) (element : α) : stack α :=
  ⟨s.items ++ [element]⟩

/-- `stack.pop`: if the backing list is truthy (non-empty) remove its last
element, otherwise do nothing; nothing is returned
(`advanced_structures.py:109-111`). -/
def stack.pop {α : Type} (s : stack α) : stack α :=
  if s.items.isEmpty then s else ⟨s.items.dropLast⟩

/-- `stack.top`: return `self.stack[-1]` when non-empty; an empty stack falls
through and implicitly returns `None` (`advanced_structures.py:113-115`). -/
def stack.top {α : Type} (s : stack α) : Option α :=
  s.items.getLast?

/-- `stack.size`: `len(self.stack)` (`advanced_structures.py:117-118`). -/
def stack.size {α : Type} (s : stack α) : Nat :=
  s.items.length

/-- `stack.is_empty`: `if self.stack: return False else: return True`
(`advanced_structures.py:120-124`). -/
def stack.is_empty {α : Type} (s : stack α) : Bool :=
  if s.items.isEmpty then true else false

/-! ## Section 4: the naive `queue` class (`advanced_structures.py:154-180`)

The backing Python list is a Lean list whose *head* is the logical front. -/

structure queue (α : Type) : Type where
  /-- the backing Python list `self.queue` -/
  items : List α

/-- `queue.__init__`: the queue starts empty (`advanced_structures.py:155-156`). -/
def queue.new {α : Type} : queue α :=
  ⟨[]⟩

/-- `queue.enqueue`: `self.queue.append(element)` (`advanced_structures.py:158-159`). -/
def queue.enqueue {α : Type} (q : queue α) (element : α) : queue α :=
  ⟨q.items ++ [element]⟩

/-- `queue.dequeue`: `self.queue.pop(0)` when non-empty (remove and return the
first element), `None` when empty; the state is returned alongside the result
(`advanced_structures.py:161-165`). -/
def queue.dequeue {α : Type} (q : queue α) : Option α × queue α :=
  match q.items with
  | [] => (none, q)
  | x :: xs => (some x, ⟨xs⟩)

/-- `queue.front`: `self.queue[0]` when non-empty, `None` when empty; never
mutates (`advanced_structures.py:167-171`). -/
def queue.front {α : Type} (q : queue α) : Option α :=
  q.items.head?

/-- `queue.is_empty`: `len(self.queue) == 0` (`advanced_structures.py:173-174`). -/
def queue.is_empty {α : Type} (q : queue α) : Bool :=
  q.items.length == 0

/-- `queue.size`: `len(self.queue)` (`advanced_structures.py:176-177`). -/
def queue.size {α : Type} (q : queue α) : Nat :=
  q.items.length

/-- Cost model for `list.pop(0)` on a contiguous sequence: after the first
cell is removed every remaining element is shifted one slot to the left, one
unit of work per shifted element.  The recursion walks the shift loop. -/
def shiftCost {α : Type} : List α → Nat
  | [] => 0
  | [_] => 0
  | _ :: y :: ys => 1 + shiftCost (y :: ys)

/-- The cost of `queue.dequeue` on the naive queue under `shiftCost`:
removing index `0` shifts the whole remainder of the backing list. -/
def queue.dequeueCost {α : Type} (q : queue α) : Nat :=
  shiftCost q.items

/-! ## Section 5: the deque-backed `my_queue` class
(`advanced_structures.py:192-217`)

The backing `collections.deque` is a Lean list whose head is the left end
(the front); `append` adds at the right end, `popleft` removes the head, both
in constant time. -/

structure my_queue : Type where
  element_type : PyType
  /-- the backing deque `self.queue` -/
  items : List PyVal

/-- `my_queue.__init__(element_type)`: record the type witness, start with an
empty deque (`advanced_structures.py:194-196`). -/
def my_queue.new (element_type : PyType) : my_queue :=
  ⟨element_type, []⟩

/-- `my_queue.enqueue`: `assert type(element) == self.element_type`, then
`self.queue.append(element)` (`advanced_structures.py:198-200`).  The failed
assertion raises before the append, so the state is returned untouched. -/
def my_queue.enqueue (q : my_queue) (element : PyVal) : Except PyError Unit × my_queue :=
  if element.type = q.element_type then
    (.ok (), ⟨q.element_type, q.items ++ [element]⟩)
  else
    (.error .assertionError, q)

/-- `my_queue.empty`: `len(self.queue) == 0` (`advanced_structures.py:202-203`). -/
def my_queue.empty (q : my_queue) : Bool :=
  q.items.length == 0

/-- `my_queue.dequeue`: `self.queue.popleft()` when non-empty, otherwise
raise `IndexError` (`advanced_structures.py:205-210`). -/
def my_queue.dequeue (q : my_queue) : Except PyError PyVal × my_queue :=
  match q.items with
  | x :: xs => (.ok x, ⟨q.element_type, xs⟩)
  | [] => (.error (.indexError "ERROR - Dequeue has been called on an empty queue."), q)

/-- `my_queue.front`: `self.queue[0]` when non-empty, otherwise raise
`IndexError`; never mutates (`advanced_structures.py:212-217`). -/
def my_queue.front (q : my_queue) : Except PyError PyVal × my_queue :=
  match q.items with
  | x :: _ => (.ok x, q)
  | [] => (.error (.indexError "ERROR - Front has been called on an empty queue."), q)

/-! ## Drivers used by the FIFO claims -/

/-- Enqueue a list of elements in order on the naive queue. -/
def queue.enqueueAll {α : Type} (q : queue α) (es : List α) : queue α :=
  es.foldl queue.enqueue q

/-- Call `dequeue` `n` times on the naive queue, recording every result. -/
def queue.dequeueN {α : Type} : Nat → queue α → List (Option α)
  | 0, _ => []
  | n + 1, q =>
    match q.dequeue with
    | (r, q2) => r :: queue.dequeueN n q2

/-- Enqueue a list of elements in order on the efficient queue, stopping at
the first failure (an assertion aborts the Python run). -/
def my_queue.enqueueAll (q : my_queue) (es : List PyVal) : my_queue :=
  match es with
  | [] => q
  | e :: rest =>
    match q.enqueue e with
    | (.ok _, q2) => q2.enqueueAll rest
    | (.error _, q2) => q2

/-- Call `dequeue` `n` times on the efficient queue, recording every result. -/
def my_queue.dequeueN : Nat → my_queue → List (Except PyError PyVal)
  | 0, _ => []
  | n + 1, q =>
    match q.dequeue with
    | (r, q2) => r :: my_queue.dequeueN n q2

/-! ## Section 6: the heapq priority queue (`advanced_structures.py:237-260`)

The repository builds its priority queues by calling `heapq.heappush` and
`heapq.heappop` on a plain list of `(priority, payload)` tuples
(`advanced_structures.py:241-249`), and equivalently `queue.PriorityQueue`
(which stores its entries in a list attribute and calls the same two heapq
functions for `put`/`get`).  The two library functions are embedded below
from CPython's reference implementation `Lib/heapq.py`; Python's tuple `<`
is lexicographic, which is any linear order here. -/

section Heapq

variable {α : Type} [LinearOrder α]

/-- CPython `heapq._siftdown(heap, startpos, pos)`: bubble the pending item
`newitem` (read from `heap[pos]` by the original) up toward `startpos`,
moving each larger parent down into the hole.  The `while pos > startpos`
loop is structural recursion on an iteration bound; the bound is sufficient
whenever `pos ≤ fuel`, because `pos` strictly decreases to `(pos - 1) / 2`,
and with `fuel = 0` forcing `pos = 0` the guard is false and the fallback
equals the loop's exit action `heap[pos] = newitem`. -/
def siftdownLoop : Nat → List α → Nat → Nat → α → List α
  | 0, heap, _startpos, pos, newitem => heap.set pos newitem
  | fuel + 1, heap, startpos, pos, newitem =>
    if startpos < pos then
      let parentpos := (pos - 1) / 2
      let parent := heap.getD parentpos newitem
      if newitem < parent then
        siftdownLoop fuel (heap.set pos parent) startpos parentpos newitem
      else
        heap.set pos newitem
    else
      heap.set pos newitem

/-- CPython `heapq.heappush(heap, item)`: `heap.append(item)` followed by
`_siftdown(heap, 0, len(heap) - 1)`.  An iteration bound of the starting
index `len(heap)` is sufficient. -/
def heappush (heap : List α) (item : α) : List α :=
  siftdownLoop heap.length (heap ++ [item]) 0 heap.length item

/-- CPython `heapq._siftup(heap, pos)` (with `newitem = heap[pos]` passed
explicitly): move the smaller child up into the hole until the hole reaches
a leaf, place `newitem` there, and bubble it back up by `_siftdown`.  The
`while childpos < endpos` loop is structural recursion on an iteration
bound; the bound is sufficient whenever `endpos ≤ fuel + pos`, because the
hole index strictly increases, and with exhausted fuel forcing
`endpos ≤ pos` the guard is false and the fallback equals the loop's exit
action (`heap[pos] = newitem` followed by `_siftdown(heap, startpos, pos)`). -/
def siftupLoop : Nat → List α → Nat → Nat → Nat → α → List α
  | 0, heap, _endpos, startpos, pos, newitem =>
    siftdownLoop pos (heap.set pos newitem) startpos pos newitem
  | fuel + 1, heap, endpos, startpos, pos, newitem =>
    let childpos := 2 * pos + 1
    if childpos < endpos then
      let rightpos := childpos + 1
      let chosen :=
        if rightpos < endpos ∧ ¬heap.getD childpos newitem < heap.getD rightpos newitem then
          rightpos
        else
          childpos
      siftupLoop fuel (heap.set pos (heap.getD chosen newitem)) endpos startpos chosen newitem
    else
      siftdownLoop pos (heap.set pos newitem) startpos pos newitem

/-- CPython `heapq.heappop(heap)`: `lastelt = heap.pop()` (raising
`IndexError` on an empty list, before any mutation); if elements remain, the
root is the return value, the last element is moved into the root slot and
`_siftup(heap, 0)` repairs the heap.  The (possibly unchanged) list is
returned alongside the result. -/
def heappop (heap : List α) : Except PyError α × List α :=
  match heap.getLast? with
  | none => (.error (.indexError "pop from empty list"), heap)
  | some lastelt =>
    match heap.dropLast with
    | [] => (.ok lastelt, [])
    | r :: rest =>
      let heap2 := (r :: rest).set 0 lastelt
      (.ok r, siftupLoop heap2.length heap2 heap2.length 0 0 lastelt)

/-- Push a list of entries in order onto an initially empty heap list, as the
demonstration code does (`advanced_structures.py:241-245`). -/
def heapPushAll (es : List α) : List α :=
  es.foldl heappush []

/-- Call `heappop` `n` times, recording the returned entries; a raised
`IndexError` aborts the run. -/
def heapPopN : Nat → List α → List α
  | 0, _ => []
  | n + 1, l =>
    match heappop l with
    | (.ok m, l2) => m :: heapPopN n l2
    | (.error _, _) => []

/-- Pop every entry off a heap list (`advanced_structures.py:247-249`). -/
def heapDrain (l : List α) : List α :=
  heapPopN l.length l

/-- The heap state left after `n` `heappop` calls. -/
def heapAfterPops : Nat → List α → List α
  | 0, l => l
  | n + 1, l => heapAfterPops n (heappop l).2

/-- The zero-based binary min-heap invariant of `heapq`: every element is at
least its parent at index `(j - 1) / 2` (comment block of CPython
`Lib/heapq.py`). -/
def IsHeap (l : List α) : Prop :=
  ∀ j : Nat, (hj : j < l.length) → 0 < j → l[(j - 1) / 2] ≤ l[j]

end Heapq

/-- An entry of the repository's priority queues: a `(priority, payload)`
tuple such as `(2, 'Sleep')`, compared the way Python compares tuples —
lexicographically (`advanced_structures.py:243-245`). -/
abbrev Entry : Type := Lex (Int × String)

/-- Build an `Entry` from a priority and a payload. -/
def Entry.mk (priority : Int) (payload : String) : Entry :=
  toLex (priority, payload)

/-- The priority component of an entry. -/
def Entry.priority (e : Entry) : Int :=
  (ofLex e).1

/-! The synchronized `queue.PriorityQueue` used by the second demonstration
(`advanced_structures.py:252-260`) keeps its entries in a list attribute and
implements `put`/`get` by calling exactly `heapq.heappush`/`heapq.heappop`
on it (CPython `Lib/queue.py`, `PriorityQueue._put`/`_get`); the lock only
serializes concurrent callers.  Its single-threaded behaviour is therefore
the wrapper below. -/

structure PriorityQueue (α : Type) : Type where
  /-- the backing list `self.queue` of CPython `Lib/queue.py` -/
  items : List α

/-- `PriorityQueue()`: starts with an empty backing list. -/
def PriorityQueue.new {α : Type} : PriorityQueue α :=
  ⟨[]⟩

/-- `PriorityQueue.put(item)`: `heappush(self.queue, item)`. -/
def PriorityQueue.put {α : Type} [LinearOrder α] (q : PriorityQueue α) (item : α) :
    PriorityQueue α :=
  ⟨heappush q.items item⟩

/-- `PriorityQueue.get()`: `heappop(self.queue)` when entries are available;
on an empty queue `get` blocks waiting for a producer, modelled as the
absence of a result. -/
def PriorityQueue.get {α : Type} [LinearOrder α] (q : PriorityQueue α) :
    Option (α × PriorityQueue α) :=
  match heappop q.items with
  | (.ok m, l2) => some (m, ⟨l2⟩)
  | (.error _, _) => none

/-- `put` each entry in order, as `advanced_structures.py:254-256` does. -/
def PriorityQueue.putAll {α : Type} [LinearOrder α] (q : PriorityQueue α) (es : List α) :
    PriorityQueue α :=
  es.foldl PriorityQueue.put q

/-- Call `get` `n` times, recording the returned entries. -/
def PriorityQueue.getN {α : Type} [LinearOrder α] : Nat → PriorityQueue α → List α
  | 0, _ => []
  | n + 1, q =>
    match q.get with
    | some (m, q2) => m :: PriorityQueue.getN n q2
    | none => []

/-! ## Remaining definitions used by the claims -/

/-- Cost model for `collections.deque.popleft()`: a deque unlinks its
leftmost block entry in constant time (one unit), independent of the number
of stored elements — in contrast with `shiftCost` for `list.pop(0)`. -/
def my_queue.dequeueCost (_q : my_queue) : Nat :=
  1

/-- An operation of the `stack` interface exercised by the accounting law:
a `push` of an element or a (silent) `pop`. -/
inductive StackOp (α : Type) : Type where
  | push : α → StackOp α
  | pop : StackOp α

/-- Run a sequence of operations left to right on a stack. -/
def stack.runOps {α : Type} : stack α → List (StackOp α) → stack α
  | s, [] => s
  | s, .push x :: ops => (s.push x).runOps ops
  | s, .pop :: ops => s.pop.runOps ops

/-- The number of `push` operations in a sequence. -/
def StackOp.pushCount {α : Type} : List (StackOp α) → Nat
  | [] => 0
  | .push _ :: ops => StackOp.pushCount ops + 1
  | .pop :: ops => StackOp.pushCount ops

/-- The number of `pop` operations in a sequence. -/
def StackOp.popCount {α : Type} : List (StackOp α) → Nat
  | [] => 0
  | .push _ :: ops => StackOp.popCount ops
  | .pop :: ops => StackOp.popCount ops + 1

/-- The number of `pop` operations that hit an empty stack (and are hence
no-ops) when the sequence is run from the given stack. -/
def stack.noopPopCount {α : Type} : stack α → List (StackOp α) → Nat
  | _, [] => 0
  | s, .push x :: ops => (s.push x).noopPopCount ops
  | s, .pop :: ops => (if s.items.isEmpty then 1 else 0) + s.pop.noopPopCount ops

section HeapqInvariants

variable {α : Type} [LinearOrder α]

/-- The intermediate state of CPython's `_siftdown` loop: the entry at `pos`
is stale (it has been copied down from the hole's previous position and will
be overwritten), `newitem` is pending.  `others` says every parent/child
edge not pointing at the hole is ordered; `below` says `newitem` fits above
the hole's children; `above` says the hole's parent fits above the hole's
children (so the parent may move down into the hole). -/
structure SiftDownState (l : List α) (pos : Nat) (newitem : α) : Prop where
  bounded : pos < l.length
  others : ∀ j : Nat, (hj : j < l.length) → 0 < j → j ≠ pos → l[(j - 1) / 2] ≤ l[j]
  below : ∀ j : Nat, (hj : j < l.length) → 0 < j → (j - 1) / 2 = pos → newitem ≤ l[j]
  above : ∀ j : Nat, (hj : j < l.length) → 0 < j → (j - 1) / 2 = pos → 0 < pos →
    l[(pos - 1) / 2] ≤ l[j]

/-- The intermediate state of CPython's `_siftup` descend loop: the entry at
the hole `pos` is stale.  `others` says every edge whose parent is not the
hole is ordered (including the edge into the hole); `holeChildren` says the
hole's parent fits above the hole's children. -/
structure SiftUpState (l : List α) (pos : Nat) : Prop where
  bounded : pos < l.length
  others : ∀ j : Nat, (hj : j < l.length) → 0 < j → (j - 1) / 2 ≠ pos → l[(j - 1) / 2] ≤ l[j]
  holeChildren : ∀ j : Nat, (hj : j < l.length) → 0 < j → (j - 1) / 2 = pos → 0 < pos →
    l[(pos - 1) / 2] ≤ l[j]

end HeapqInvariants

/-! # Theorems

## General list facts shared by the development -/

section ListFacts

variable {α : Type} [DecidableEq α]

/-- Replacing the entry at an in-bounds index trades one occurrence of the
old entry for one of the new entry, in additive form. -/
theorem count_set_add (l : List α) {i : Nat} (hi : i < l.length) (x c : α) :
    (l.set i x).count c + (if l[i] = c then 1 else 0) =
      l.count c + (if x = c then 1 else 0) := by
  have hmem : l[i] = c → 0 < l.count c := fun h =>
    List.count_pos_iff.mpr (h ▸ List.getElem_mem hi)
  have hc : (if l[i] = c then 1 else 0) ≤ l.count c := by
    split_ifs with h
    · exact hmem h
    · exact Nat.zero_le _
  rw [List.count_set x c l i hi]
  simp only [beq_iff_eq]
  split_ifs at hc ⊢ <;> omega

/-- Writing `l[j]` over the entry at `i` and then overwriting slot `j` is,
up to permutation, the same as overwriting slot `i` directly. -/
theorem perm_set_set (l : List α) {i j : Nat} (hi : i < l.length) (hj : j < l.length)
    (hne : i ≠ j) (x : α) :
    List.Perm ((l.set i l[j]).set j x) (l.set i x) := by
  rw [List.perm_iff_count]
  intro c
  have hj2 : j < (l.set i l[j]).length := by simpa using hj
  have hji : (l.set i l[j])[j] = l[j] := by
    rw [List.getElem_set]
    simp [hne]
  have e1 := count_set_add (l.set i l[j]) hj2 x c
  rw [hji] at e1
  have e2 := count_set_add l hi l[j] c
  have e3 := count_set_add l hi x c
  split_ifs at e1 e2 e3 <;> omega

end ListFacts

/-- Setting the slot just past an appended singleton rewrites that singleton. -/
theorem set_append_len {α : Type} (l : List α) (x y : α) :
    (l ++ [x]).set l.length y = l ++ [y] := by
  induction l with
  | nil => rfl
  | cons a t ih => simp [ih]

/-! ## The binary-heap invariant and the `_siftdown` phase -/

section HeapProofs

variable {α : Type} [LinearOrder α]

/-- The empty list is a heap. -/
theorem isHeap_nil : IsHeap ([] : List α) := by
  intro j hj
  simp at hj

/-- In a heap the root is a minimum: walking the parent chain of any index
down to the root only decreases the entry. -/
theorem IsHeap.root_min {l : List α} (h : IsHeap l) :
    ∀ j : Nat, (hj : j < l.length) → l[0] ≤ l[j] := by
  intro j
  induction j using Nat.strong_induction_on with
  | _ j ih =>
    intro hj
    rcases Nat.eq_zero_or_pos j with rfl | hpos
    · exact le_refl _
    · exact le_trans (ih ((j - 1) / 2) (by omega) (by omega)) (h j hj hpos)

/-- One iteration of the `_siftdown` loop body: when `newitem` is smaller
than the hole's parent, copying the parent down into the hole moves the
loop invariant onto the parent position. -/
theorem SiftDownState.step_down {l : List α} {pos : Nat} {ni : α}
    (st : SiftDownState l pos ni) (h0 : 0 < pos)
    (hpar : (pos - 1) / 2 < l.length) (hlt : ni < l[(pos - 1) / 2]) :
    SiftDownState (l.set pos l[(pos - 1) / 2]) ((pos - 1) / 2) ni := by
  have hb := st.bounded
  have hset : ∀ k : Nat, (hk1 : k < l.length) → (hk2 : k < (l.set pos l[(pos - 1) / 2]).length) →
      (l.set pos l[(pos - 1) / 2])[k] = if pos = k then l[(pos - 1) / 2] else l[k] := by
    intro k hk1 hk2
    rw [List.getElem_set]
  refine ⟨by simpa using hpar, ?_, ?_, ?_⟩
  · intro j hj h0j hne
    have hj0 : j < l.length := by simpa using hj
    have hpj0 : (j - 1) / 2 < l.length := by omega
    rw [hset j hj0 hj, hset ((j - 1) / 2) hpj0 (by simpa using hpj0)]
    by_cases hjp : j = pos
    · subst hjp
      rw [if_neg (by omega), if_pos (by omega)]
    · by_cases hcj : (j - 1) / 2 = pos
      · rw [if_pos (by omega), if_neg (by omega)]
        exact st.above j hj0 h0j hcj h0
      · rw [if_neg (by omega), if_neg (by omega)]
        exact st.others j hj0 h0j hjp
  · intro j hj h0j hcj
    have hj0 : j < l.length := by simpa using hj
    rw [hset j hj0 hj]
    by_cases hjp : j = pos
    · rw [if_pos (by omega)]
      exact le_of_lt hlt
    · rw [if_neg (by omega)]
      have h1 : l[(j - 1) / 2] ≤ l[j] := st.others j hj0 h0j hjp
      have h2 : l[(j - 1) / 2] = l[(pos - 1) / 2] := by
        congr 1
      exact le_trans (le_of_lt (h2 ▸ hlt)) h1
  · intro j hj h0j hcj hpp
    have hj0 : j < l.length := by simpa using hj
    have hgp : ((pos - 1) / 2 - 1) / 2 < l.length := by omega
    rw [hset j hj0 hj, hset (((pos - 1) / 2 - 1) / 2) hgp (by simpa using hgp)]
    have hedge : l[((pos - 1) / 2 - 1) / 2] ≤ l[(pos - 1) / 2] :=
      st.others ((pos - 1) / 2) hpar hpp (by omega)
    by_cases hjp : j = pos
    · rw [if_neg (by omega), if_pos (by omega)]
      exact hedge
    · rw [if_neg (by omega), if_neg (by omega)]
      have h1 : l[(j - 1) / 2] ≤ l[j] := st.others j hj0 h0j hjp
      have h2 : l[(j - 1) / 2] = l[(pos - 1) / 2] := by
        congr 1
      exact le_trans hedge (le_trans (le_of_eq h2.symm) h1)

/-- Exiting the `_siftdown` loop (at the root, or with `newitem` at least
the parent) and writing `newitem` into the hole yields a heap. -/
theorem SiftDownState.exit_down {l : List α} {pos : Nat} {ni : α}
    (st : SiftDownState l pos ni)
    (hstop : 0 < pos → l.getD ((pos - 1) / 2) ni ≤ ni) :
    IsHeap (l.set pos ni) := by
  have hb := st.bounded
  intro j hj h0j
  have hj0 : j < l.length := by simpa using hj
  have hpj0 : (j - 1) / 2 < l.length := by omega
  have hset : ∀ k : Nat, (hk1 : k < l.length) → (hk2 : k < (l.set pos ni).length) →
      (l.set pos ni)[k] = if pos = k then ni else l[k] := by
    intro k hk1 hk2
    rw [List.getElem_set]
  rw [hset j hj0 hj, hset ((j - 1) / 2) hpj0 (by simpa using hpj0)]
  by_cases hjp : j = pos
  · subst hjp
    rw [if_neg (by omega), if_pos (by omega)]
    have := hstop h0j
    rwa [List.getD_eq_getElem l ni hpj0] at this
  · by_cases hcj : (j - 1) / 2 = pos
    · rw [if_pos (by omega), if_neg (by omega)]
      exact st.below j hj0 h0j hcj
    · rw [if_neg (by omega), if_neg (by omega)]
      exact st.others j hj0 h0j hjp

/-- The fuelled `_siftdown` loop yields a heap from any loop-invariant
state, the fuel bound `pos` being sufficient. -/
theorem siftdownLoop_isHeap :
    ∀ (fuel : Nat) (l : List α) (pos : Nat) (ni : α), pos ≤ fuel →
      SiftDownState l pos ni → IsHeap (siftdownLoop fuel l 0 pos ni) := by
  intro fuel
  induction fuel with
  | zero =>
    intro l pos ni hf st
    have hp : pos = 0 := by omega
    subst hp
    exact st.exit_down (by omega)
  | succ fuel ih =>
    intro l pos ni hf st
    have hb := st.bounded
    simp only [siftdownLoop]
    by_cases h0 : 0 < pos
    · rw [if_pos h0]
      have hpar : (pos - 1) / 2 < l.length := by omega
      by_cases hlt : ni < l.getD ((pos - 1) / 2) ni
      · rw [if_pos hlt]
        rw [List.getD_eq_getElem l ni hpar] at hlt ⊢
        exact ih _ _ _ (by omega) (st.step_down h0 hpar hlt)
      · rw [if_neg hlt]
        exact st.exit_down (fun _ => not_lt.mp hlt)
    · rw [if_neg h0]
      exact st.exit_down (fun h => absurd h h0)

/-- The fuelled `_siftdown` loop permutes the list exactly as writing the
pending item straight into the hole would. -/
theorem siftdownLoop_perm :
    ∀ (fuel : Nat) (l : List α) (sp pos : Nat) (ni : α), pos < l.length →
      List.Perm (siftdownLoop fuel l sp pos ni) (l.set pos ni) := by
  intro fuel
  induction fuel with
  | zero =>
    intro l sp pos ni hpos
    simp only [siftdownLoop]
    exact List.Perm.refl _
  | succ fuel ih =>
    intro l sp pos ni hpos
    simp only [siftdownLoop]
    by_cases h0 : sp < pos
    · rw [if_pos h0]
      by_cases hlt : ni < l.getD ((pos - 1) / 2) ni
      · rw [if_pos hlt]
        have hpar : (pos - 1) / 2 < l.length := by omega
        rw [List.getD_eq_getElem l ni hpar]
        refine (ih _ sp _ ni (by simpa using hpar)).trans ?_
        exact perm_set_set l hpos hpar (by omega) ni
      · rw [if_neg hlt]
    · rw [if_neg h0]

/-- `heappush` preserves the contents of the heap up to permutation, adding
exactly the pushed item. -/
theorem heappush_perm (l : List α) (x : α) :
    List.Perm (heappush l x) (x :: l) := by
  unfold heappush
  refine (siftdownLoop_perm _ _ _ _ _ (by simp)).trans ?_
  rw [set_append_len]
  exact List.perm_append_singleton x l

/-- `heappush` preserves the binary-heap invariant. -/
theorem heappush_isHeap {l : List α} (h : IsHeap l) (x : α) :
    IsHeap (heappush l x) := by
  unfold heappush
  refine siftdownLoop_isHeap _ _ _ _ (le_refl _) ⟨by simp, ?_, ?_, ?_⟩
  · intro j hj h0j hne
    have hj0 : j < l.length := by
      simp at hj
      omega
    have hpj0 : (j - 1) / 2 < l.length := by omega
    rw [List.getElem_append_left hj0, List.getElem_append_left hpj0]
    exact h j hj0 h0j
  · intro j hj h0j hcj
    simp at hj
    omega
  · intro j hj h0j hcj hpp
    simp at hj
    omega

/-- The heap built by pushing every entry of a list onto an initially empty
heap satisfies the invariant. -/
theorem heapPushAll_isHeap (es : List α) : IsHeap (heapPushAll es) := by
  unfold heapPushAll
  have main : ∀ (es : List α) (l : List α), IsHeap l → IsHeap (es.foldl heappush l) := by
    intro es
    induction es with
    | nil => intro l hl; exact hl
    | cons e rest ih =>
      intro l hl
      exact ih (heappush l e) (heappush_isHeap hl e)
  exact main es [] isHeap_nil

/-- The heap built by pushing every entry of a list holds exactly those
entries. -/
theorem heapPushAll_perm (es : List α) : List.Perm (heapPushAll es) es := by
  unfold heapPushAll
  have main : ∀ (es : List α) (l : List α), List.Perm (es.foldl heappush l) (es ++ l) := by
    intro es
    induction es with
    | nil => intro l; simp
    | cons e rest ih =>
      intro l
      have p1 := ih (heappush l e)
      have p2 : List.Perm (rest ++ heappush l e) (rest ++ (e :: l)) :=
        List.Perm.append_left rest (heappush_perm l e)
      have p3 : List.Perm (rest ++ (e :: l)) (e :: (rest ++ l)) := List.perm_middle
      exact p1.trans (p2.trans p3)
  exact (main es []).trans (by simp)

/-! ## The `_siftup` phase -/

/-- One iteration of the `_siftup` descend loop: copying the least child `c`
of the hole up into the hole moves the loop invariant onto `c`. -/
theorem SiftUpState.step_up {l : List α} {pos c : Nat} (st : SiftUpState l pos)
    (hc : c < l.length) (hc0 : 0 < c) (hchild : (c - 1) / 2 = pos)
    (hmin : ∀ j : Nat, (hj : j < l.length) → 0 < j → (j - 1) / 2 = pos → l[c] ≤ l[j]) :
    SiftUpState (l.set pos l[c]) c := by
  have hb := st.bounded
  have hcpos : pos < c := by omega
  have hset : ∀ k : Nat, (hk1 : k < l.length) → (hk2 : k < (l.set pos l[c]).length) →
      (l.set pos l[c])[k] = if pos = k then l[c] else l[k] := by
    intro k hk1 hk2
    rw [List.getElem_set]
  refine ⟨by simpa using hc, ?_, ?_⟩
  · intro j hj h0j hne
    have hj0 : j < l.length := by simpa using hj
    have hpj0 : (j - 1) / 2 < l.length := by omega
    rw [hset j hj0 hj, hset ((j - 1) / 2) hpj0 (by simpa using hpj0)]
    by_cases hjp : j = pos
    · subst hjp
      have h0p : 0 < j := h0j
      rw [if_neg (by omega), if_pos (by omega)]
      exact st.holeChildren c hc hc0 hchild h0p
    · by_cases hcj : (j - 1) / 2 = pos
      · rw [if_pos (by omega), if_neg (by omega)]
        exact hmin j hj0 h0j hcj
      · rw [if_neg (by omega), if_neg (by omega)]
        exact st.others j hj0 h0j hcj
  · intro j hj h0j hcj hc0x
    have hj0 : j < l.length := by simpa using hj
    have hjc : c < j := by omega
    have hpc : (c - 1) / 2 < (l.set pos l[c]).length := by
      simp
      omega
    rw [hset j hj0 hj, hset ((c - 1) / 2) (by omega) hpc]
    rw [if_pos (by omega), if_neg (by omega)]
    have := st.others j hj0 h0j (by omega)
    have h2 : l[(j - 1) / 2] = l[c] := by
      congr 1
    exact le_trans (le_of_eq h2.symm) this

/-- Exiting the `_siftup` descend loop at a childless hole: writing the
pending item into the hole leaves a valid `_siftdown` start state. -/
theorem SiftUpState.exit_up {l : List α} {pos : Nat} (st : SiftUpState l pos) (ni : α)
    (hleaf : l.length ≤ 2 * pos + 1) :
    SiftDownState (l.set pos ni) pos ni := by
  have hb := st.bounded
  have hset : ∀ k : Nat, (hk1 : k < l.length) → (hk2 : k < (l.set pos ni).length) →
      (l.set pos ni)[k] = if pos = k then ni else l[k] := by
    intro k hk1 hk2
    rw [List.getElem_set]
  refine ⟨by simpa using hb, ?_, ?_, ?_⟩
  · intro j hj h0j hne
    have hj0 : j < l.length := by simpa using hj
    have hpj0 : (j - 1) / 2 < l.length := by omega
    have hcj : (j - 1) / 2 ≠ pos := by omega
    rw [hset j hj0 hj, hset ((j - 1) / 2) hpj0 (by simpa using hpj0)]
    rw [if_neg (by omega), if_neg (by omega)]
    exact st.others j hj0 h0j hcj
  · intro j hj h0j hcj
    have hj0 : j < l.length := by simpa using hj
    omega
  · intro j hj h0j hcj hpp
    have hj0 : j < l.length := by simpa using hj
    omega

/-- The fuelled `_siftup` loop yields a heap from any descend-loop-invariant
state, the fuel bound `endpos - pos` being sufficient. -/
theorem siftupLoop_isHeap :
    ∀ (fuel : Nat) (l : List α) (pos : Nat) (ni : α), l.length ≤ fuel + pos →
      SiftUpState l pos → IsHeap (siftupLoop fuel l l.length 0 pos ni) := by
  intro fuel
  induction fuel with
  | zero =>
    intro l pos ni hf st
    exact absurd st.bounded (by omega)
  | succ fuel ih =>
    intro l pos ni hf st
    have hb := st.bounded
    simp only [siftupLoop]
    by_cases hch : 2 * pos + 1 < l.length
    · rw [if_pos hch]
      by_cases hr : 2 * pos + 1 + 1 < l.length ∧
          ¬l.getD (2 * pos + 1) ni < l.getD (2 * pos + 1 + 1) ni
      · rw [if_pos hr]
        obtain ⟨hrb, hrle⟩ := hr
        rw [List.getD_eq_getElem l ni hrb] at hrle ⊢
        rw [List.getD_eq_getElem l ni hch] at hrle
        have hst2 : SiftUpState (l.set pos l[2 * pos + 1 + 1]) (2 * pos + 1 + 1) := by
          refine st.step_up hrb (by omega) (by omega) ?_
          intro j hj h0j hcj
          have : j = 2 * pos + 1 ∨ j = 2 * pos + 2 := by omega
          rcases this with rfl | rfl
          · exact not_lt.mp hrle
          · exact le_refl _
        have hlen : l.length = (l.set pos l[2 * pos + 1 + 1]).length := by simp
        rw [hlen]
        exact ih _ _ ni (by simp; omega) hst2
      · rw [if_neg hr]
        have hst2 : SiftUpState (l.set pos (l.getD (2 * pos + 1) ni)) (2 * pos + 1) := by
          rw [List.getD_eq_getElem l ni hch]
          refine st.step_up hch (by omega) (by omega) ?_
          intro j hj h0j hcj
          have hj2 : j = 2 * pos + 1 ∨ j = 2 * pos + 2 := by omega
          rcases hj2 with rfl | rfl
          · exact le_refl _
          · have hrb : 2 * pos + 1 + 1 < l.length := by omega
            have := hr
            push_neg at this
            have hlt := this hrb
            rw [List.getD_eq_getElem l ni hch, List.getD_eq_getElem l ni hrb] at hlt
            exact le_of_lt hlt
        have hlen : l.length = (l.set pos (l.getD (2 * pos + 1) ni)).length := by simp
        rw [hlen]
        exact ih _ _ ni (by simp; omega) hst2
    · rw [if_neg hch]
      exact siftdownLoop_isHeap _ _ _ _ (le_refl _) (st.exit_up ni (by omega))

/-- The fuelled `_siftup` loop permutes the list exactly as writing the
pending item straight into the hole would. -/
theorem siftupLoop_perm :
    ∀ (fuel : Nat) (l : List α) (endpos sp pos : Nat) (ni : α),
      pos < l.length → endpos ≤ l.length →
      List.Perm (siftupLoop fuel l endpos sp pos ni) (l.set pos ni) := by
  intro fuel
  induction fuel with
  | zero =>
    intro l endpos sp pos ni hpos hend
    simp only [siftupLoop]
    refine (siftdownLoop_perm _ _ _ _ _ (by simpa using hpos)).trans ?_
    rw [List.set_set]
  | succ fuel ih =>
    intro l endpos sp pos ni hpos hend
    simp only [siftupLoop]
    by_cases hch : 2 * pos + 1 < endpos
    · rw [if_pos hch]
      by_cases hr : 2 * pos + 1 + 1 < endpos ∧
          ¬l.getD (2 * pos + 1) ni < l.getD (2 * pos + 1 + 1) ni
      · rw [if_pos hr]
        have hrb : 2 * pos + 1 + 1 < l.length := by omega
        rw [List.getD_eq_getElem l ni hrb]
        refine (ih _ endpos sp _ ni (by simpa using hrb) (by simpa using hend)).trans ?_
        exact perm_set_set l hpos hrb (by omega) ni
      · rw [if_neg hr]
        have hcb : 2 * pos + 1 < l.length := by omega
        rw [List.getD_eq_getElem l ni hcb]
        refine (ih _ endpos sp _ ni (by simpa using hcb) (by simpa using hend)).trans ?_
        exact perm_set_set l hpos hcb (by omega) ni
    · rw [if_neg hch]
      refine (siftdownLoop_perm _ _ _ _ _ (by simpa using hpos)).trans ?_
      rw [List.set_set]

/-! ## The `heappop` specification -/

/-- `heappop` on an empty list raises `IndexError` (from `heap.pop()`) and
leaves the list unchanged. -/
theorem heappop_nil :
    heappop ([] : List α) = (.error (.indexError "pop from empty list"), []) :=
  rfl

/-- In a heap the head is below every member. -/
theorem IsHeap.head_min {x : α} {t : List α} (hh : IsHeap (x :: t)) :
    ∀ y ∈ x :: t, x ≤ y := by
  intro y hy
  obtain ⟨j, hj, rfl⟩ := List.mem_iff_getElem.mp hy
  exact hh.root_min j hj

/-- The `heappop` specification on a nonempty heap: the root is returned,
the returned list is again a heap, and together with the root it is a
permutation of the input. -/
theorem heappop_cons_spec {x : α} {t : List α} (hh : IsHeap (x :: t)) :
    (heappop (x :: t)).1 = .ok x ∧ IsHeap (heappop (x :: t)).2 ∧
      List.Perm (x :: (heappop (x :: t)).2) (x :: t) := by
  rcases List.eq_nil_or_concat' t with rfl | ⟨init, lastelt, rfl⟩
  · exact ⟨rfl, isHeap_nil, List.Perm.refl _⟩
  · have e1 : (x :: (init ++ [lastelt])).getLast? = some lastelt := by
      rw [show x :: (init ++ [lastelt]) = (x :: init) ++ [lastelt] from rfl,
        List.getLast?_concat]
    have e2 : (x :: (init ++ [lastelt])).dropLast = x :: init := by
      rw [show x :: (init ++ [lastelt]) = (x :: init) ++ [lastelt] from rfl]
      exact List.dropLast_concat
    have hred : heappop (x :: (init ++ [lastelt])) =
        (.ok x, siftupLoop (init.length + 1) (lastelt :: init) (init.length + 1)
          0 0 lastelt) := by
      simp only [heappop, e1, e2]
      rfl
    have hlen : (x :: (init ++ [lastelt])).length = init.length + 2 := by simp
    have hagree : ∀ k : Nat, 1 ≤ k → (hk1 : k < (lastelt :: init).length) →
        (hk2 : k < (x :: (init ++ [lastelt])).length) →
        (lastelt :: init)[k] = (x :: (init ++ [lastelt]))[k] := by
      intro k h1k hk1 hk2
      obtain ⟨k0, rfl⟩ : ∃ k0, k = k0 + 1 := ⟨k - 1, by omega⟩
      simp only [List.getElem_cons_succ]
      rw [List.getElem_append_left (by simp at hk1; omega)]
    have hstate : SiftUpState (lastelt :: init) 0 := by
      refine ⟨by simp, ?_, ?_⟩
      · intro j hj h0j hne
        have hj2 : j < (x :: (init ++ [lastelt])).length := by
          simp at hj ⊢
          omega
        have hpj : (j - 1) / 2 < (lastelt :: init).length := by
          simp at hj ⊢
          omega
        have hpj2 : (j - 1) / 2 < (x :: (init ++ [lastelt])).length := by
          simp at hpj ⊢
          omega
        rw [hagree j (by omega) hj hj2, hagree ((j - 1) / 2) (by omega) hpj hpj2]
        exact hh j hj2 h0j
      · intro j hj h0j hcj hpos
        omega
    have hfin : IsHeap (siftupLoop (init.length + 1) (lastelt :: init)
        (init.length + 1) 0 0 lastelt) := by
      have := siftupLoop_isHeap (init.length + 1) (lastelt :: init) 0 lastelt
        (by simp) hstate
      simpa using this
    have hperm : List.Perm (siftupLoop (init.length + 1) (lastelt :: init)
        (init.length + 1) 0 0 lastelt) (lastelt :: init) := by
      have := siftupLoop_perm (init.length + 1) (lastelt :: init)
        (init.length + 1) 0 0 lastelt (by simp) (by simp)
      simpa using this
    rw [hred]
    refine ⟨rfl, hfin, ?_⟩
    refine (List.Perm.cons x hperm).trans ?_
    exact List.Perm.cons x (List.perm_append_singleton lastelt init).symm

/-! ## Draining the heap -/

/-- Popping (at least) as many times as the heap is long returns its entries
in sorted order: the drained sequence is a sorted permutation of the heap. -/
theorem heapPopN_sorted_perm :
    ∀ (n : Nat) (l : List α), l.length ≤ n → IsHeap l →
      List.Sorted (· ≤ ·) (heapPopN n l) ∧ List.Perm (heapPopN n l) l := by
  intro n
  induction n with
  | zero =>
    intro l hl _
    have : l = [] := by
      cases l with
      | nil => rfl
      | cons x t => simp at hl
    subst this
    exact ⟨List.sorted_nil, List.Perm.refl _⟩
  | succ n ih =>
    intro l hl hh
    cases l with
    | nil => exact ⟨List.sorted_nil, List.Perm.refl _⟩
    | cons x t =>
      obtain ⟨h1, h2, h3⟩ := heappop_cons_spec hh
      rcases hp : heappop (x :: t) with ⟨r, l2⟩
      rw [hp] at h1 h2 h3
      simp only at h1 h2 h3
      subst h1
      have hperm2 : List.Perm l2 t := (h3.cons_inv)
      have hlen2 : l2.length ≤ n := by
        have := hperm2.length_eq
        simp at hl
        omega
      obtain ⟨ihs, ihp⟩ := ih l2 hlen2 h2
      have hcons : heapPopN (n + 1) (x :: t) = x :: heapPopN n l2 := by
        simp only [heapPopN, hp]
      rw [hcons]
      constructor
      · refine List.sorted_cons.mpr ⟨?_, ihs⟩
        intro b hb
        have hbl2 : b ∈ l2 := (ihp.mem_iff).mp hb
        have hbl : b ∈ x :: t := h3.mem_iff.mp (List.mem_cons_of_mem x hbl2)
        exact hh.head_min b hbl
      · exact (List.Perm.cons x ihp).trans h3
  
/-- Draining the heap built from a push sequence returns a sorted
permutation of the pushed entries. -/
theorem heapDrain_pushAll_sorted_perm (es : List α) :
    List.Sorted (· ≤ ·) (heapDrain (heapPushAll es)) ∧
      List.Perm (heapDrain (heapPushAll es)) es := by
  obtain ⟨hs, hp⟩ := heapPopN_sorted_perm (heapPushAll es).length (heapPushAll es)
    (le_refl _) (heapPushAll_isHeap es)
  exact ⟨hs, hp.trans (heapPushAll_perm es)⟩

/-- After `k ≤ n` pops the heap is still a heap and holds `n - k` entries. -/
theorem heapAfterPops_spec :
    ∀ (k : Nat) (l : List α), IsHeap l → k ≤ l.length →
      IsHeap (heapAfterPops k l) ∧ (heapAfterPops k l).length = l.length - k := by
  intro k
  induction k with
  | zero =>
    intro l hh _
    exact ⟨hh, by simp [heapAfterPops]⟩
  | succ k ih =>
    intro l hh hk
    cases l with
    | nil => simp at hk
    | cons x t =>
      obtain ⟨h1, h2, h3⟩ := heappop_cons_spec hh
      have hlen2 : (heappop (x :: t)).2.length = t.length := by
        have := h3.length_eq
        simp at this
        omega
      have hrec : heapAfterPops (k + 1) (x :: t) = heapAfterPops k (heappop (x :: t)).2 :=
        rfl
      rw [hrec]
      obtain ⟨ihh, ihl⟩ := ih (heappop (x :: t)).2 h2 (by simp at hk; omega)
      refine ⟨ihh, ?_⟩
      rw [ihl, hlen2]
      simp only [List.length_cons]
      omega

/-- Each drained entry is, at the moment it is extracted, a member of the
currently held entries and below all of them. -/
theorem heapPopN_getElem_min :
    ∀ (n : Nat) (l : List α), l.length ≤ n → IsHeap l →
      ∀ k : Nat, (hk : k < (heapPopN n l).length) →
        (heapPopN n l)[k] ∈ heapAfterPops k l ∧
          ∀ y ∈ heapAfterPops k l, (heapPopN n l)[k] ≤ y := by
  intro n
  induction n with
  | zero =>
    intro l hl hh k hk
    simp [heapPopN] at hk
  | succ n ih =>
    intro l hl hh k hk
    cases l with
    | nil =>
      rw [show heapPopN (n + 1) ([] : List α) = [] from rfl] at hk
      simp at hk
    | cons x t =>
      obtain ⟨h1, h2, h3⟩ := heappop_cons_spec hh
      rcases hp : heappop (x :: t) with ⟨r, l2⟩
      rw [hp] at h1 h2 h3
      simp only at h1 h2 h3
      subst h1
      have hcons : heapPopN (n + 1) (x :: t) = x :: heapPopN n l2 := by
        simp only [heapPopN, hp]
      have hlen2 : l2.length ≤ n := by
        have := h3.cons_inv.length_eq
        simp at hl
        omega
      simp only [hcons] at hk ⊢
      cases k with
      | zero =>
        refine ⟨List.mem_cons_self x t, ?_⟩
        intro y hy
        exact hh.head_min y hy
      | succ k =>
        have hrec : heapAfterPops (k + 1) (x :: t) = heapAfterPops k l2 := by
          simp only [heapAfterPops, hp]
        rw [hrec]
        have := ih l2 hlen2 h2 k (by simpa using hk)
        simpa using this

/-! ## `queue.PriorityQueue` delegates to heapq -/

/-- `putAll` folds `heappush` over the backing list. -/
theorem PriorityQueue.putAll_items :
    ∀ (es l : List α), (PriorityQueue.putAll ⟨l⟩ es).items = es.foldl heappush l := by
  intro es
  induction es with
  | nil => intro l; rfl
  | cons e rest ih =>
    intro l
    exact ih (heappush l e)

/-- `getN` yields the same entry sequence as draining with `heappop`. -/
theorem PriorityQueue.getN_eq :
    ∀ (n : Nat) (l : List α), PriorityQueue.getN n ⟨l⟩ = heapPopN n l := by
  intro n
  induction n with
  | zero => intro l; rfl
  | succ n ih =>
    intro l
    rcases hp : heappop l with ⟨r, l2⟩
    cases r with
    | ok m =>
      simp only [PriorityQueue.getN, PriorityQueue.get, heapPopN, hp]
      rw [ih l2]
    | error e =>
      simp only [PriorityQueue.getN, PriorityQueue.get, heapPopN, hp]

end HeapProofs

/-! ## FIFO behaviour of the two queue classes -/

/-- Enqueueing on the naive queue appends to the backing list. -/
theorem queue.enqueueAll_append {α : Type} :
    ∀ (es : List α) (l : List α), (queue.enqueueAll ⟨l⟩ es).items = l ++ es := by
  intro es
  induction es with
  | nil => intro l; simp [queue.enqueueAll]
  | cons e rest ih =>
    intro l
    have : queue.enqueueAll (⟨l⟩ : queue α) (e :: rest) =
        queue.enqueueAll ⟨l ++ [e]⟩ rest := rfl
    rw [this, ih]
    simp

/-- Dequeueing as many times as the backing list is long returns exactly its
elements, in order, each wrapped in `some`. -/
theorem queue.dequeueN_map {α : Type} :
    ∀ (l : List α), queue.dequeueN l.length ⟨l⟩ = l.map some := by
  intro l
  induction l with
  | nil => rfl
  | cons x xs ih =>
    simp only [List.length_cons, queue.dequeueN, queue.dequeue, List.map_cons]
    rw [ih]

/-- Enqueueing well-typed elements on the efficient queue appends them all to
the backing deque and keeps the witness. -/
theorem my_queue.enqueueAll_deque :
    ∀ (es : List PyVal) (t : PyType) (l : List PyVal), (∀ e ∈ es, e.type = t) →
      my_queue.enqueueAll ⟨t, l⟩ es = ⟨t, l ++ es⟩ := by
  intro es
  induction es with
  | nil => intro t l _; simp [my_queue.enqueueAll]
  | cons e rest ih =>
    intro t l hw
    have he : e.type = t := hw e (List.mem_cons_self e rest)
    have hstep : my_queue.enqueueAll ⟨t, l⟩ (e :: rest) =
        my_queue.enqueueAll ⟨t, l ++ [e]⟩ rest := by
      simp [my_queue.enqueueAll, my_queue.enqueue, he]
    rw [hstep, ih t (l ++ [e]) (fun x hx => hw x (List.mem_cons_of_mem e hx))]
    simp

/-- Dequeueing as many times as the backing deque is long returns exactly its
elements, in order, each wrapped in `Except.ok`. -/
theorem my_queue.dequeueN_ok :
    ∀ (l : List PyVal) (t : PyType),
      my_queue.dequeueN l.length ⟨t, l⟩ = l.map Except.ok := by
  intro l
  induction l with
  | nil => intro t; rfl
  | cons x xs ih =>
    intro t
    simp only [List.length_cons, my_queue.dequeueN, my_queue.dequeue, List.map_cons]
    rw [ih t]

/-! ## Stack accounting and the `pop(0)` cost model -/

/-- Running any operation sequence: final size plus pop count equals initial
size plus push count plus the number of no-op pops (pops on empty). -/
theorem stack.runOps_size {α : Type} :
    ∀ (ops : List (StackOp α)) (s : stack α),
      (s.runOps ops).size + StackOp.popCount ops =
        s.size + StackOp.pushCount ops + s.noopPopCount ops := by
  intro ops
  induction ops with
  | nil => intro s; simp [stack.runOps, StackOp.popCount, StackOp.pushCount, stack.noopPopCount]
  | cons op rest ih =>
    intro s
    cases op with
    | push x =>
      have hstep := ih (s.push x)
      have hsz : (s.push x).size = s.size + 1 := by
        simp [stack.push, stack.size]
      simp only [stack.runOps, StackOp.popCount, StackOp.pushCount, stack.noopPopCount]
      omega
    | pop =>
      have hstep := ih s.pop
      have hsz : s.pop.size + 1 = s.size + (if s.items.isEmpty then 1 else 0) := by
        rcases s with ⟨items⟩
        cases items with
        | nil => simp [stack.pop, stack.size]
        | cons a t =>
          simp [stack.pop, stack.size]
      simp only [stack.runOps, StackOp.popCount, StackOp.pushCount, stack.noopPopCount]
      omega

/-- The shift loop behind `list.pop(0)` does work linear in the list length:
exactly one unit per element that survives the removal. -/
theorem shiftCost_eq {α : Type} :
    ∀ l : List α, l ≠ [] → shiftCost l = l.length - 1 := by
  intro l
  induction l with
  | nil => intro h; exact absurd rfl h
  | cons x xs ih =>
    intro _
    cases xs with
    | nil => simp [shiftCost]
    | cons y ys =>
      have := ih (by simp)
      simp only [shiftCost, this]
      simp
      omega

/-- Tuple order refines priority order: a lexicographically smaller entry has
a priority that is no larger. -/
theorem Entry.priority_mono {a b : Entry} (h : a ≤ b) :
    a.priority ≤ b.priority := by
  have h2 := (Prod.Lex.le_iff (ofLex a) (ofLex b)).mp h
  rcases h2 with hlt | ⟨heq, _⟩
  · exact le_of_lt hlt
  · exact le_of_eq heq

/-! ## The claims -/

/-- Claim C1: FIFO law for both queue implementations — for every sequence
of enqueues `e1..en` on a freshly constructed queue followed by `n`
dequeues, the dequeue order equals `e1..en`, identically for the naive
list-backed `queue` and the deque-backed `my_queue` (on well-typed inputs),
the only difference being the result wrappers (`Option` versus raising). -/
theorem fifo_law_both_queues (es : List PyVal) (t : PyType)
    (hw : ∀ e ∈ es, e.type = t) :
    queue.dequeueN es.length (queue.enqueueAll queue.new es) = es.map some ∧
    my_queue.dequeueN es.length (my_queue.enqueueAll (my_queue.new t) es) =
      es.map Except.ok := by
  constructor
  · have h := queue.enqueueAll_append es []
    simp only [List.nil_append] at h
    have h1 : queue.enqueueAll (queue.new : queue PyVal) es = ⟨es⟩ :=
      congrArg queue.mk h
    rw [h1]
    exact queue.dequeueN_map es
  · have h := my_queue.enqueueAll_deque es t [] hw
    simp only [List.nil_append] at h
    rw [show my_queue.new t = (⟨t, []⟩ : my_queue) from rfl, h]
    exact my_queue.dequeueN_ok es t

/-- Witness for C1 at the concrete input `[1, 2, 3]` with witness type
`int`. -/
theorem fifo_law_both_queues_witness :
    (∀ e ∈ [PyVal.int 1, PyVal.int 2, PyVal.int 3], e.type = PyType.int) ∧
    queue.dequeueN [PyVal.int 1, PyVal.int 2, PyVal.int 3].length
        (queue.enqueueAll queue.new [PyVal.int 1, PyVal.int 2, PyVal.int 3]) =
      [PyVal.int 1, PyVal.int 2, PyVal.int 3].map some ∧
    my_queue.dequeueN [PyVal.int 1, PyVal.int 2, PyVal.int 3].length
        (my_queue.enqueueAll (my_queue.new PyType.int)
          [PyVal.int 1, PyVal.int 2, PyVal.int 3]) =
      [PyVal.int 1, PyVal.int 2, PyVal.int 3].map Except.ok := by
  refine ⟨by decide, ?_, ?_⟩
  · exact (fifo_law_both_queues [PyVal.int 1, PyVal.int 2, PyVal.int 3] PyType.int
      (by decide)).1
  · exact (fifo_law_both_queues [PyVal.int 1, PyVal.int 2, PyVal.int 3] PyType.int
      (by decide)).2

/-- Claim C3: efficient-queue type enforcement — enqueueing a value whose
runtime type differs from the construction-time witness fails with the
assertion error (the spec's `TypeMismatchError`), and the queue (backing
deque and witness alike) is returned exactly as it was. -/
theorem eff_queue_type_enforcement (q : my_queue) (e : PyVal)
    (h : e.type ≠ q.element_type) :
    q.enqueue e = (.error .assertionError, q) := by
  simp [my_queue.enqueue, h]

/-- Witness for C3: enqueueing the int `5` on a str-typed queue holding
`"a"` fails and changes nothing. -/
theorem eff_queue_type_enforcement_witness :
    (PyVal.int 5).type ≠ (my_queue.mk PyType.str [PyVal.str "a"]).element_type ∧
    (my_queue.mk PyType.str [PyVal.str "a"]).enqueue (PyVal.int 5) =
      (.error .assertionError, my_queue.mk PyType.str [PyVal.str "a"]) :=
  ⟨by decide, eff_queue_type_enforcement _ _ (by decide)⟩

/-- Claim C4: empty-error law for the fail-fast components — `dequeue` and
`front` on an empty `my_queue` raise `IndexError` (the spec's
`EmptyContainerError`) with the queue state untouched, and `heappop` on an
empty heap list likewise raises `IndexError` leaving the list empty. -/
theorem empty_error_law (q : my_queue) (hq : q.items = []) :
    q.dequeue =
      (.error (.indexError "ERROR - Dequeue has been called on an empty queue."), q) ∧
    q.front =
      (.error (.indexError "ERROR - Front has been called on an empty queue."), q) ∧
    heappop ([] : List Entry) = (.error (.indexError "pop from empty list"), []) := by
  rcases q with ⟨t, items⟩
  simp only at hq
  subst hq
  exact ⟨rfl, rfl, rfl⟩

/-- Witness for C4 on a freshly constructed int-typed queue. -/
theorem empty_error_law_witness :
    (my_queue.new PyType.int).items = [] ∧
    (my_queue.new PyType.int).dequeue =
      (.error (.indexError "ERROR - Dequeue has been called on an empty queue."),
        my_queue.new PyType.int) ∧
    (my_queue.new PyType.int).front =
      (.error (.indexError "ERROR - Front has been called on an empty queue."),
        my_queue.new PyType.int) :=
  ⟨rfl, (empty_error_law (my_queue.new PyType.int) rfl).1,
    (empty_error_law (my_queue.new PyType.int) rfl).2.1⟩

/-- Claim C2: priority-queue min-extraction law — for every insert sequence
of `(priority, payload)` entries, draining the heap yields the entries in
non-decreasing (tuple and hence priority) order, as a permutation of the
inserts; each drained entry is a member of, and minimal among, the entries
held at the moment of its extraction; the heap is empty after `k ≤ n`
extractions exactly when `k = n`; and the `queue.PriorityQueue` wrapper
yields the identical extraction sequence. -/
theorem pq_min_extraction_law (es : List Entry) :
    List.Sorted (· ≤ ·) (heapDrain (heapPushAll es)) ∧
    List.Sorted (· ≤ ·) ((heapDrain (heapPushAll es)).map Entry.priority) ∧
    List.Perm (heapDrain (heapPushAll es)) es ∧
    (∀ k : Nat, ∀ hk : k < (heapDrain (heapPushAll es)).length,
      (heapDrain (heapPushAll es))[k] ∈ heapAfterPops k (heapPushAll es) ∧
        ∀ y ∈ heapAfterPops k (heapPushAll es), (heapDrain (heapPushAll es))[k] ≤ y) ∧
    (∀ k : Nat, k ≤ es.length →
      (heapAfterPops k (heapPushAll es) = [] ↔ k = es.length)) ∧
    PriorityQueue.getN es.length (PriorityQueue.new.putAll es) =
      heapDrain (heapPushAll es) := by
  have hheap := heapPushAll_isHeap es
  have hlenAll : (heapPushAll es).length = es.length := (heapPushAll_perm es).length_eq
  obtain ⟨hs, hp⟩ := heapDrain_pushAll_sorted_perm es
  refine ⟨hs, ?_, hp, ?_, ?_, ?_⟩
  · exact List.Pairwise.map Entry.priority (fun a b hab => Entry.priority_mono hab) hs
  · intro k hk
    simp only [heapDrain] at hk ⊢
    exact heapPopN_getElem_min (heapPushAll es).length (heapPushAll es) (le_refl _)
      hheap k hk
  · intro k hkle
    obtain ⟨_, hlen⟩ := heapAfterPops_spec k (heapPushAll es) hheap (by omega)
    constructor
    · intro hnil
      rw [hnil] at hlen
      simp at hlen
      omega
    · intro hk
      subst hk
      rw [← List.length_eq_zero]
      omega
  · have h0 : PriorityQueue.new.putAll es = (⟨heapPushAll es⟩ : PriorityQueue Entry) :=
      congrArg PriorityQueue.mk (PriorityQueue.putAll_items es [])
    rw [h0, PriorityQueue.getN_eq]
    simp only [heapDrain, hlenAll]

/-- Witness for C2: the concrete scenario — insert `(2, 'Sleep')`,
`(1, 'Eat')`, `(3, 'Work')`; extraction yields `(1, 'Eat')`, `(2, 'Sleep')`,
`(3, 'Work')` and empties the queue. -/
theorem pq_min_extraction_law_witness :
    heapDrain (heapPushAll [Entry.mk 2 "Sleep", Entry.mk 1 "Eat", Entry.mk 3 "Work"]) =
      [Entry.mk 1 "Eat", Entry.mk 2 "Sleep", Entry.mk 3 "Work"] ∧
    (3 ≤ ([Entry.mk 2 "Sleep", Entry.mk 1 "Eat", Entry.mk 3 "Work"] : List Entry).length ∧
      heapAfterPops 3
        (heapPushAll [Entry.mk 2 "Sleep", Entry.mk 1 "Eat", Entry.mk 3 "Work"]) = []) := by
  constructor
  · decide
  · exact ⟨by decide,
      ((pq_min_extraction_law [Entry.mk 2 "Sleep", Entry.mk 1 "Eat", Entry.mk 3 "Work"]
        ).2.2.2.2.1 3 (by decide)).mpr rfl⟩

/-- Claim C5: stack LIFO accounting law — over any operation sequence from a
fresh empty stack, the final `size()` plus the pop count equals the push
count plus the number of no-op pops (so `size()` is the push count minus
the pops that removed something); `top()` after a push is that element, a
pop undoes the latest push, popping an empty stack is a no-op, and a pop
never takes `size()` below `0`. -/
theorem stack_accounting_law {α : Type} (ops : List (StackOp α)) :
    ((stack.new none).runOps ops).size + StackOp.popCount ops =
      StackOp.pushCount ops + (stack.new (none : Option (List α))).noopPopCount ops ∧
    (∀ (s : stack α) (x : α), (s.push x).top = some x) ∧
    (∀ (s : stack α) (x : α), (s.push x).pop = s) ∧
    (∀ s : stack α, s.items = [] → s.pop = s) ∧
    (∀ s : stack α, s.pop.size = s.size - 1) := by
  refine ⟨?_, ?_, ?_, ?_, ?_⟩
  · have h := stack.runOps_size ops (stack.new (none : Option (List α)))
    have h0 : (stack.new (none : Option (List α))).size = 0 := rfl
    omega
  · intro s x
    simp [stack.push, stack.top]
  · intro s x
    rcases s with ⟨items⟩
    simp [stack.push, stack.pop]
  · intro s hs
    rcases s with ⟨items⟩
    simp only at hs
    subst hs
    rfl
  · intro s
    rcases s with ⟨items⟩
    cases items <;> simp [stack.pop, stack.size]

/-- Witness for C5: a push followed by two pops (the second a no-op), and a
pop on a fresh stack. -/
theorem stack_accounting_law_witness :
    ((stack.new none).runOps [StackOp.push (1 : Int), StackOp.pop, StackOp.pop]).size +
        StackOp.popCount [StackOp.push (1 : Int), StackOp.pop, StackOp.pop] =
      StackOp.pushCount [StackOp.push (1 : Int), StackOp.pop, StackOp.pop] +
        (stack.new (none : Option (List Int))).noopPopCount
          [StackOp.push (1 : Int), StackOp.pop, StackOp.pop] ∧
    (stack.new (none : Option (List Int))).items = [] ∧
    (stack.new (none : Option (List Int))).pop = stack.new none :=
  ⟨(stack_accounting_law [StackOp.push (1 : Int), StackOp.pop, StackOp.pop]).1,
    rfl, (stack_accounting_law ([] : List (StackOp Int))).2.2.2.1 (stack.new none) rfl⟩

/-- Claim C6: stack silent-absence behaviour — `pop()` removes the top
element when non-empty and is a no-op when empty, returning nothing either
way (its result type is just the stack); `top()` returns the top element
without removing it when non-empty and `None` when empty; both are total
functions, so neither ever raises. -/
theorem stack_silent_absence {α : Type} (s : stack α) :
    (s.items = [] → s.pop = s ∧ s.top = none) ∧
    ∀ (l : List α) (x : α), s.items = l ++ [x] → s.pop = ⟨l⟩ ∧ s.top = some x := by
  rcases s with ⟨items⟩
  constructor
  · intro h
    simp only at h
    subst h
    exact ⟨rfl, rfl⟩
  · intro l x h
    simp only at h
    subst h
    constructor
    · simp [stack.pop]
    · simp [stack.top]

/-- Witness for C6 on the empty stack and on `[1, 2]`. -/
theorem stack_silent_absence_witness :
    (stack.mk ([] : List Int)).pop = stack.mk [] ∧
    (stack.mk ([] : List Int)).top = none ∧
    (stack.mk ([1, 2] : List Int)).pop = stack.mk [1] ∧
    (stack.mk ([1, 2] : List Int)).top = some 2 := by
  obtain ⟨h1, h2⟩ := (stack_silent_absence (stack.mk ([] : List Int))).1 rfl
  obtain ⟨h3, h4⟩ := (stack_silent_absence (stack.mk ([1, 2] : List Int))).2 [1] 2 rfl
  exact ⟨h1, h2, h3, h4⟩

/-- Claim C7: emptiness/size agreement — on every stack state and every
naive-queue state, `is_empty()` returns true exactly when `size()` is `0`. -/
theorem emptiness_size_agreement {α : Type} (s : stack α) (q : queue α) :
    (s.is_empty = true ↔ s.size = 0) ∧ (q.is_empty = true ↔ q.size = 0) := by
  constructor
  · rcases s with ⟨items⟩
    cases items <;> simp [stack.is_empty, stack.size]
  · rcases q with ⟨items⟩
    cases items <;> simp [queue.is_empty, queue.size]

/-- Claim C8: naive-queue dequeue cost — under the element-shift cost model
for removing index `0` of a contiguous sequence, `dequeue` on a non-empty
naive queue costs exactly `size - 1` shift units (linear in the queue
length), while the deque-backed queue's `popleft` costs a constant `1`. -/
theorem naive_dequeue_linear_cost {α : Type} (q : queue α) (h : q.items ≠ []) :
    q.dequeueCost = q.size - 1 ∧ ∀ q2 : my_queue, q2.dequeueCost = 1 :=
  ⟨shiftCost_eq q.items h, fun _ => rfl⟩

/-- Witness for C8 on a three-element queue. -/
theorem naive_dequeue_linear_cost_witness :
    (queue.mk ([10, 20, 30] : List Int)).items ≠ [] ∧
    (queue.mk ([10, 20, 30] : List Int)).dequeueCost =
      (queue.mk ([10, 20, 30] : List Int)).size - 1 ∧
    (my_queue.new PyType.int).dequeueCost = 1 :=
  ⟨by decide, (naive_dequeue_linear_cost (queue.mk ([10, 20, 30] : List Int))
      (by decide)).1,
    (naive_dequeue_linear_cost (queue.mk ([0] : List Int)) (by decide)).2
      (my_queue.new PyType.int)⟩

/-- Claim C9: silent-absence path of the naive queue — on an empty naive
queue, `dequeue()` returns `None` with the state untouched and `front()`
returns `None`; both are total functions (no exception path exists). -/
theorem naive_queue_empty_silent {α : Type} (q : queue α) (h : q.items = []) :
    q.dequeue = (none, q) ∧ q.front = none := by
  rcases q with ⟨items⟩
  simp only at h
  subst h
  exact ⟨rfl, rfl⟩

/-- Witness for C9 on a freshly constructed naive queue. -/
theorem naive_queue_empty_silent_witness :
    (queue.new : queue Int).items = [] ∧
    (queue.new : queue Int).dequeue = (none, queue.new) ∧
    (queue.new : queue Int).front = none :=
  ⟨rfl, (naive_queue_empty_silent queue.new rfl).1,
    (naive_queue_empty_silent queue.new rfl).2⟩

/-- Claim C10: determinism of priority-queue extraction — the drained
sequence is the unique sorted arrangement of the pushed entries: it is
invariant under permuting the push sequence (in particular, identical
across runs of the same pushes), and any sorted permutation of the entries
equals it, so the relative order of equal-priority entries is fully
determined by the entries themselves (via the payload tie-break of tuple
comparison), never arbitrary. -/
theorem pq_extraction_deterministic (es1 es2 : List Entry)
    (hperm : List.Perm es1 es2) :
    heapDrain (heapPushAll es1) = heapDrain (heapPushAll es2) ∧
    ∀ out : List Entry, List.Perm out es1 → List.Sorted (· ≤ ·) out →
      out = heapDrain (heapPushAll es1) := by
  obtain ⟨hs1, hp1⟩ := heapDrain_pushAll_sorted_perm es1
  obtain ⟨hs2, hp2⟩ := heapDrain_pushAll_sorted_perm es2
  constructor
  · exact List.eq_of_perm_of_sorted (hp1.trans (hperm.trans hp2.symm)) hs1 hs2
  · intro out hop hos
    exact List.eq_of_perm_of_sorted (hop.trans hp1.symm) hos hs1

/-- Witness for C10: two permuted push orders of the same two entries drain
identically, to the sorted sequence. -/
theorem pq_extraction_deterministic_witness :
    heapDrain (heapPushAll [Entry.mk 1 "Eat", Entry.mk 2 "Sleep"]) =
      heapDrain (heapPushAll [Entry.mk 2 "Sleep", Entry.mk 1 "Eat"]) ∧
    heapDrain (heapPushAll [Entry.mk 1 "Eat", Entry.mk 2 "Sleep"]) =
      [Entry.mk 1 "Eat", Entry.mk 2 "Sleep"] := by
  refine ⟨(pq_extraction_deterministic [Entry.mk 1 "Eat", Entry.mk 2 "Sleep"]
    [Entry.mk 2 "Sleep", Entry.mk 1 "Eat"] (List.Perm.swap _ _ _)).1, by decide⟩
